import Mathlib

/-!
# Wind — verification of the watch/build/run supervisor core

Shallow embedding of `main.go` of the `wind` repository (a polling
file-watcher that rebuilds and restarts a Go project on source changes),
together with proofs about the embedded operations.

Modelling conventions:
* The file tree visited by `filepath.Walk` is a rose tree `FSEntry`;
  an `errEnt` node stands for an entry whose `lstat` failed, i.e. a walk
  callback invocation with a non-nil `err` argument (the callback then
  returns the error and the walk aborts).
* `FileIndex` (`app.fileStates : map[string]time.Time`) is an association
  list from relative path to modification time; timestamps are `Nat`,
  `time.After` is strict `<`.
* `filepath.Walk` visits the root `"."` first and then descends in
  listing order; `filepath.Join` of `"."` with a name is the bare name.
* Side effects of `buildAndRun` / `stopProcess` (child processes,
  signals) are recorded explicitly: process handles are pids (`Nat`),
  outcomes of the external build / start / signal operations are Boolean
  parameters, and emitted process-management actions are listed.
-/

/-! ## Strings: `strings.Contains` and `filepath.Ext` -/

/-- Character-list prefix test (used to implement substring search). -/
def isPrefixChars : List Char → List Char → Bool
  | [], _ => true
  | _ :: _, [] => false
  | a :: as, b :: bs => a == b && isPrefixChars as bs

/-- Substring search on character lists. -/
def containsChars (sub : List Char) : List Char → Bool
  | [] => isPrefixChars sub []
  | c :: rest => isPrefixChars sub (c :: rest) || containsChars sub rest

/-- Go `strings.Contains s sub`. -/
def stringContains (s sub : String) : Bool :=
  containsChars sub.toList s.toList

/-- Scan of the reversed path used by `filepath.Ext`: walk backwards from
the end; stop with `""` at a path separator, return from the dot
(inclusive) if a dot is found first. -/
def extRev (acc : List Char) : List Char → List Char
  | [] => []
  | c :: rest =>
    if c == '/' then []
    else if c == '.' then c :: acc
    else extRev (c :: acc) rest

/-- Go `filepath.Ext`: the suffix beginning at the final dot in the final
path element, empty if there is none. -/
def fileExt (path : String) : String :=
  String.mk (extRev [] path.toList.reverse)

/-! ## Configuration (`WindConfig`, the fields the walk uses) -/

/-- The part of `WindConfig` that drives scanning: excluded directory
name fragments and included extensions. -/
structure WindConfig where
  excludeDirs : List String
  includeExts : List String
deriving DecidableEq

/-- `ExcludeDirs` default from `runWatcher`. -/
def defaultExcludeDirs : List String :=
  ["vendor", ".git", "node_modules", "tmp", ".idea", ".vscode"]

/-- `IncludeExts` default from `runWatcher`. -/
def defaultIncludeExts : List String :=
  [".go", ".html", ".css", ".js", ".json", ".yaml", ".yml"]

/-- The default watcher configuration built in `runWatcher`. -/
def defaultConfig : WindConfig :=
  { excludeDirs := defaultExcludeDirs, includeExts := defaultIncludeExts }

/-- The exclusion test of `scanFiles` / `checkForChanges`: some excluded
fragment is a substring of the (relative) path. -/
def isExcluded (cfg : WindConfig) (path : String) : Bool :=
  cfg.excludeDirs.any (fun ex => stringContains path ex)

/-- `shouldWatch`: the file's extension equals one of the included
extensions. -/
def shouldWatch (cfg : WindConfig) (path : String) : Bool :=
  cfg.includeExts.any (fun e => fileExt path == e)

/-! ## FileIndex (`app.fileStates`) -/

/-- `FileIndex`: association list from relative path to last-seen
modification time. -/
def FileIndex : Type := List (String × Nat)

instance : DecidableEq FileIndex := by
  unfold FileIndex; infer_instance

/-- Map lookup. -/
def lookupIdx : FileIndex → String → Option Nat
  | [], _ => none
  | (k, v) :: rest, p => if k == p then some v else lookupIdx rest p

/-- Map assignment `fileStates[path] = modTime`: replace in place when
the key is present, append otherwise. -/
def setIdx : FileIndex → String → Nat → FileIndex
  | [], p, m => [(p, m)]
  | (k, v) :: rest, p, m =>
    if k == p then (p, m) :: rest else (k, v) :: setIdx rest p m

/-! ## The file tree and the walk -/

/-- A filesystem entry as seen by `filepath.Walk`. `errEnt` is an entry
whose stat failed: the walk callback receives a non-nil error there. -/
inductive FSEntry where
  | file (name : String) (mtime : Nat)
  | dir (name : String) (children : List FSEntry)
  | errEnt (name : String)

/-- The name of an entry. -/
def entryName : FSEntry → String
  | .file n _ => n
  | .dir n _ => n
  | .errEnt n => n

/-- `filepath.Join base name` as produced by a walk rooted at `"."`:
children of the root get bare names. -/
def childPath (base name : String) : String :=
  if base == "." then name else base ++ "/" ++ name

/-- The per-file body of `checkForChanges`:
`if lastMod, exists := app.fileStates[path]; !exists || modTime.After(lastMod)`
— insert on first sight (no change), overwrite and report a change on a
strictly newer timestamp, otherwise leave the entry alone. Returns the
new index and whether this file was reported as changed. -/
def chkUpdate (idx : FileIndex) (p : String) (m : Nat) : FileIndex × Bool :=
  match lookupIdx idx p with
  | none => (setIdx idx p m, false)
  | some last => if last < m then (setIdx idx p m, true) else (idx, false)

mutual
/-- The walk callback of `checkForChanges` applied to one entry rooted at
`path`. State is `(fileStates, changed)`; the extra Boolean is `true`
when the walk aborted with an error. An error entry aborts; an excluded
path is skipped (for a directory, the whole subtree via
`filepath.SkipDir`); an eligible file goes through `chkUpdate`. -/
def chkEntry (cfg : WindConfig) (st : FileIndex × Bool) (path : String) :
    FSEntry → (FileIndex × Bool) × Bool
  | .errEnt _ => (st, true)
  | .dir _ children =>
    if isExcluded cfg path then (st, false)
    else chkList cfg st path children
  | .file _ mtime =>
    if isExcluded cfg path then (st, false)
    else if shouldWatch cfg path then
      ((( chkUpdate st.1 path mtime).1, st.2 || (chkUpdate st.1 path mtime).2), false)
    else (st, false)

/-- The walk of `checkForChanges` over a list of sibling entries under
`base`, aborting at the first error. -/
def chkList (cfg : WindConfig) (st : FileIndex × Bool) (base : String) :
    List FSEntry → (FileIndex × Bool) × Bool
  | [] => (st, false)
  | e :: rest =>
    let r := chkEntry cfg st (childPath base (entryName e)) e
    if r.2 then r else chkList cfg r.1 base rest
end

/-- `checkForChanges`: walk the tree rooted at `"."` starting from the
given index with `changed = false`; return `((fileStates, changed),
errored)`. The Go function logs the error and returns `changed` either
way. -/
def checkForChanges (cfg : WindConfig) (idx : FileIndex)
    (tree : List FSEntry) : (FileIndex × Bool) × Bool :=
  chkEntry cfg (idx, false) "." (.dir "." tree)

mutual
/-- The walk callback of `scanFiles` applied to one entry: identical
skip/exclude logic, but the index entry of an eligible file is
overwritten unconditionally (`app.fileStates[path] = info.ModTime()`). -/
def scanEntry (cfg : WindConfig) (idx : FileIndex) (path : String) :
    FSEntry → FileIndex × Bool
  | .errEnt _ => (idx, true)
  | .dir _ children =>
    if isExcluded cfg path then (idx, false)
    else scanList cfg idx path children
  | .file _ mtime =>
    if isExcluded cfg path then (idx, false)
    else if shouldWatch cfg path then (setIdx idx path mtime, false)
    else (idx, false)

/-- The walk of `scanFiles` over sibling entries, aborting at the first
error. -/
def scanList (cfg : WindConfig) (idx : FileIndex) (base : String) :
    List FSEntry → FileIndex × Bool
  | [] => (idx, false)
  | e :: rest =>
    let r := scanEntry cfg idx (childPath base (entryName e)) e
    if r.2 then r else scanList cfg r.1 base rest
end

/-- `scanFiles`: walk the tree rooted at `"."`; returns the new index and
whether the walk errored (the Go function returns the walk error to its
caller). -/
def scanFiles (cfg : WindConfig) (idx : FileIndex)
    (tree : List FSEntry) : FileIndex × Bool :=
  scanEntry cfg idx "." (.dir "." tree)

/-! ## Specification-side views of the walk

`eligEntry` lists the eligible files the walk actually reaches (in visit
order), `errFreeEntry` says the walk reaches no error entry. Both mirror
the skip logic of the source walk. -/

mutual
/-- The `(path, mtime)` pairs of eligible files the walk visits inside
one entry. -/
def eligEntry (cfg : WindConfig) (path : String) :
    FSEntry → List (String × Nat)
  | .errEnt _ => []
  | .dir _ children =>
    if isExcluded cfg path then [] else eligList cfg path children
  | .file _ mtime =>
    if isExcluded cfg path then []
    else if shouldWatch cfg path then [(path, mtime)]
    else []

/-- Eligible files visited in a sibling list. -/
def eligList (cfg : WindConfig) (base : String) :
    List FSEntry → List (String × Nat)
  | [] => []
  | e :: rest =>
    eligEntry cfg (childPath base (entryName e)) e ++ eligList cfg base rest
end

mutual
/-- The walk encounters no error entry inside this entry (entries inside
excluded directories are never reached). -/
def errFreeEntry (cfg : WindConfig) (path : String) : FSEntry → Bool
  | .errEnt _ => false
  | .dir _ children =>
    if isExcluded cfg path then true else errFreeList cfg path children
  | .file _ _ => true

/-- The walk encounters no error entry in this sibling list. -/
def errFreeList (cfg : WindConfig) (base : String) : List FSEntry → Bool
  | [] => true
  | e :: rest =>
    errFreeEntry cfg (childPath base (entryName e)) e &&
      errFreeList cfg base rest
end

/-- Eligible files of the whole tree, as visited from the root `"."`. -/
def eligFiles (cfg : WindConfig) (tree : List FSEntry) :
    List (String × Nat) :=
  eligEntry cfg "." (.dir "." tree)

/-- The whole walk from the root is error-free. -/
def errFree (cfg : WindConfig) (tree : List FSEntry) : Bool :=
  errFreeEntry cfg "." (.dir "." tree)

/-- One step of the `checkForChanges` state evolution on an eligible
file. -/
def chkStep (st : FileIndex × Bool) (pm : String × Nat) : FileIndex × Bool :=
  ((chkUpdate st.1 pm.1 pm.2).1, st.2 || (chkUpdate st.1 pm.1 pm.2).2)

/-- Folding `chkStep` over a list of eligible files. -/
def chkFoldPair (st : FileIndex × Bool) (l : List (String × Nat)) :
    FileIndex × Bool :=
  l.foldl chkStep st

/-- Folding the unconditional overwrite of `scanFiles`. -/
def scanFold (idx : FileIndex) (l : List (String × Nat)) : FileIndex :=
  l.foldl (fun i pm => setIdx i pm.1 pm.2) idx

/-- Is the visited timestamp strictly newer than the one stored for an
already-present file? (`modTime.After(lastMod)` with `exists`.) -/
def newerIn (idx : FileIndex) (pm : String × Nat) : Bool :=
  match lookupIdx idx pm.1 with
  | none => false
  | some last => decide (last < pm.2)

/-- The timestamp stored for an eligible file after `checkForChanges`
visits it: first sight inserts, a strictly newer time overwrites,
otherwise the old value stays. -/
def chkNewVal (old : Option Nat) (m : Nat) : Nat :=
  match old with
  | none => m
  | some last => if last < m then m else last

/-! ## ProcessSupervisor: `stopProcess` -/

/-- A process-management action performed by `stopProcess`. -/
inductive PAct where
  | sigterm (pid : Nat)
  | kill (pid : Nat)
  | reap (pid : Nat)
deriving DecidableEq

/-- `stopProcess`: with no handle, do nothing; with a handle, send
SIGTERM, escalate to `Kill` exactly when the signal fails (`sigOk =
false`), then `Wait` (reap) and clear the handle. Returns the new handle
and the actions in order. -/
def stopProcess (sigOk : Bool) : Option Nat → Option Nat × List PAct
  | none => (none, [])
  | some pid =>
    (none, .sigterm pid :: (if sigOk then [] else [.kill pid]) ++ [.reap pid])

/-! ## BuildRunLoop: `buildAndRun` -/

/-- The state `buildAndRun` touches: the `building` flag, the process
handle, and a count of executions of the build command (so that "exactly
one build" is observable). -/
structure BRState where
  building : Bool
  process : Option Nat
  builds : Nat
deriving DecidableEq

/-- `buildAndRun` (the body runs under `app.mutex`): an invocation that
finds `building` set returns at once; otherwise set the flag, stop the
current process, run the build command (outcome `buildOk`), on success
start the run command (outcome `startOk`, new pid `newPid`), and clear
the flag on each of the three exit paths. -/
def buildAndRun (sigOk buildOk startOk : Bool) (newPid : Nat)
    (s : BRState) : BRState :=
  if s.building then s
  else
    let afterStop : BRState :=
      { building := true,
        process := (stopProcess sigOk s.process).1,
        builds := s.builds }
    let afterBuild : BRState := { afterStop with builds := afterStop.builds + 1 }
    if buildOk = false then { afterBuild with building := false }
    else if startOk = false then { afterBuild with building := false }
    else { afterBuild with process := some newPid, building := false }

/-! ## Watcher control loop: `watchFiles` -/

/-- An event multiplexed by the `select` of `watchFiles`: a poll tick
(carrying the time and the result of `checkForChanges()`), the debounce
timer firing, or the stop channel closing. -/
inductive WEvent where
  | tick (now : Nat) (changed : Bool)
  | fire (now : Nat)
  | stop
deriving DecidableEq

/-- The loop state of `watchFiles`: the `hasChanges` flag (pending), the
armed debounce deadline (`none` = timer stopped), how many times
`buildAndRun` was invoked, and whether the loop returned. -/
structure WState where
  pending : Bool
  deadline : Option Nat
  builds : Nat
  stopped : Bool
deriving DecidableEq

/-- Loop state at entry to `watchFiles`: timer created and immediately
stopped, `hasChanges = false`. -/
def winit : WState :=
  { pending := false, deadline := none, builds := 0, stopped := false }

/-- One dispatch of the `select` in `watchFiles`. On a tick whose scan
reported a change with `hasChanges` still false, set the flag and arm the
debounce timer for the full delay from now (`debounce.Reset`); a change
while pending re-arms nothing. On the timer firing, build exactly once if
pending, and clear it. On stop, return. -/
def wstep (delay : Nat) (s : WState) : WEvent → WState
  | .tick now changed =>
    if s.stopped then s
    else if changed && !s.pending then
      { s with pending := true, deadline := some (now + delay) }
    else s
  | .fire _ =>
    if s.stopped then s
    else if s.pending then
      { s with pending := false, deadline := none, builds := s.builds + 1 }
    else { s with deadline := none }
  | .stop => { s with stopped := true }

/-- Run the loop over a sequence of events. -/
def wrun (delay : Nat) (s : WState) (evs : List WEvent) : WState :=
  evs.foldl (wstep delay) s

/-! ## Project-layout detection and the fixed run / cleanup paths -/

/-- The filesystem facts `detectProjectStructure` consults: which paths
`os.Stat` finds, and the result of `os.ReadDir("cmd")` — entry names with
their directory flag in listing order, plus whether the read succeeded. -/
structure ProjFS where
  files : List String
  cmdEntries : List (String × Bool)
  cmdReadOk : Bool

/-- `os.Stat(p)` succeeds. -/
def statOk (fs : ProjFS) (p : String) : Bool :=
  fs.files.contains p

/-- The scan of `cmd/` subdirectories: first entry in listing order that
is a directory containing a `main.go`. -/
def firstCmdDir (fs : ProjFS) : List (String × Bool) → Option String
  | [] => none
  | (name, isDir) :: rest =>
    if isDir && statOk fs ("cmd/" ++ name ++ "/main.go") then some name
    else firstCmdDir fs rest

/-- `detectProjectStructure`: the ordered decision table returning
`(buildCmd, buildTarget)`. -/
def detectProjectStructure (fs : ProjFS) : String × String :=
  if statOk fs "cmd/api/main.go" then
    ("go build -o ./tmp/main ./cmd/api", "Standard layout (cmd/api/)")
  else if statOk fs "cmd/main.go" then
    ("go build -o ./tmp/main ./cmd", "Standard layout (cmd/)")
  else if statOk fs "main.go" then
    ("go build -o ./tmp/main .", "Simple layout (root main.go)")
  else
    match (if fs.cmdReadOk then firstCmdDir fs fs.cmdEntries else none) with
    | some name =>
      ("go build -o ./tmp/main ./cmd/" ++ name,
        "Standard layout (cmd/" ++ name ++ "/)")
    | none => ("go build -o ./tmp/main .", "Fallback (current directory)")

/-- `RunCmd` fixed in `runWatcher`. -/
def windRunCmd : String := "./tmp/main"

/-- The artifact path `cleanup` stats and removes. -/
def windCleanupTarget : String := "tmp/main"

/-! ## Index lemmas -/

theorem lookupIdx_setIdx (idx : FileIndex) (p q : String) (v : Nat) :
    lookupIdx (setIdx idx p v) q = if q = p then some v else lookupIdx idx q := by
  induction idx with
  | nil =>
    by_cases h : q = p
    · simp [setIdx, lookupIdx, h]
    · have hpq : (p == q) = false := by
        simp [beq_iff_eq]; exact fun hc => h hc.symm
      simp [setIdx, lookupIdx, hpq, h]
  | cons kv rest ih =>
    obtain ⟨k, w⟩ := kv
    by_cases hkp : k = p
    · subst hkp
      by_cases hqk : q = k
      · subst hqk
        simp [setIdx, lookupIdx]
      · have h1 : (k == q) = false := by
          simp [beq_iff_eq]; exact fun hc => hqk hc.symm
        simp [setIdx, lookupIdx, h1, hqk]
    · have h2 : (k == p) = false := by simp [beq_iff_eq]; exact hkp
      by_cases hqk : q = k
      · subst hqk
        have h3 : q ≠ p := fun hc => hkp (hc ▸ rfl)
        simp [setIdx, lookupIdx, h2, h3]
      · have h4 : (k == q) = false := by
          simp [beq_iff_eq]; exact fun hc => hqk hc.symm
        simp [setIdx, lookupIdx, h2, h4, ih]

theorem setIdx_of_lookup_eq (idx : FileIndex) (p : String) (v : Nat)
    (h : lookupIdx idx p = some v) : setIdx idx p v = idx := by
  induction idx with
  | nil => simp [lookupIdx] at h
  | cons kv rest ih =>
    obtain ⟨k, w⟩ := kv
    by_cases hkp : k = p
    · subst hkp
      simp [lookupIdx] at h
      simp [setIdx, h]
    · have h2 : (k == p) = false := by simp [beq_iff_eq]; exact hkp
      simp [lookupIdx, h2] at h
      simp [setIdx, h2, ih h]

/-! ## `chkUpdate` lemmas -/

theorem chkUpdate_snd (idx : FileIndex) (p : String) (m : Nat) :
    (chkUpdate idx p m).2 = newerIn idx (p, m) := by
  unfold chkUpdate newerIn
  cases h : lookupIdx idx p with
  | none => simp
  | some last =>
    by_cases hlt : last < m <;> simp [hlt]

theorem chkUpdate_lookup_self (idx : FileIndex) (p : String) (m : Nat) :
    lookupIdx (chkUpdate idx p m).1 p = some (chkNewVal (lookupIdx idx p) m) := by
  unfold chkUpdate chkNewVal
  cases h : lookupIdx idx p with
  | none => simp [lookupIdx_setIdx]
  | some last =>
    by_cases hlt : last < m <;> simp [hlt, lookupIdx_setIdx, h]

theorem chkUpdate_lookup_ne (idx : FileIndex) (p q : String) (m : Nat)
    (h : q ≠ p) : lookupIdx (chkUpdate idx p m).1 q = lookupIdx idx q := by
  unfold chkUpdate
  cases hl : lookupIdx idx p with
  | none => simp [lookupIdx_setIdx, h]
  | some last =>
    by_cases hlt : last < m <;> simp [hlt, lookupIdx_setIdx, h]

/-! ## Fold lemmas -/

/-- The index component of the `checkForChanges` fold, ignoring the
changed flag. -/
def chkFoldIdx (idx : FileIndex) (l : List (String × Nat)) : FileIndex :=
  l.foldl (fun i pm => (chkUpdate i pm.1 pm.2).1) idx

theorem chkFoldPair_append (st : FileIndex × Bool) (a b : List (String × Nat)) :
    chkFoldPair st (a ++ b) = chkFoldPair (chkFoldPair st a) b := by
  unfold chkFoldPair
  exact List.foldl_append _ _ _ _

theorem chkFoldPair_fst (idx : FileIndex) (c : Bool) (l : List (String × Nat)) :
    (chkFoldPair (idx, c) l).1 = chkFoldIdx idx l := by
  induction l generalizing idx c with
  | nil => rfl
  | cons pm rest ih =>
    simp only [chkFoldPair, chkFoldIdx, List.foldl_cons] at *
    exact ih _ _

theorem chkFoldIdx_cons (idx : FileIndex) (pm : String × Nat)
    (rest : List (String × Nat)) :
    chkFoldIdx idx (pm :: rest) = chkFoldIdx (chkUpdate idx pm.1 pm.2).1 rest :=
  rfl

theorem chkFoldIdx_lookup_notMem (idx : FileIndex) (l : List (String × Nat))
    (q : String) (h : q ∉ l.map Prod.fst) :
    lookupIdx (chkFoldIdx idx l) q = lookupIdx idx q := by
  induction l generalizing idx with
  | nil => rfl
  | cons pm rest ih =>
    simp only [List.map_cons, List.mem_cons, not_or] at h
    rw [chkFoldIdx_cons, ih _ h.2, chkUpdate_lookup_ne _ _ _ _ h.1]

theorem chkFoldIdx_lookup_mem (idx : FileIndex) (l : List (String × Nat))
    (p : String) (m : Nat) (hmem : (p, m) ∈ l)
    (hnd : (l.map Prod.fst).Nodup) :
    lookupIdx (chkFoldIdx idx l) p = some (chkNewVal (lookupIdx idx p) m) := by
  induction l generalizing idx with
  | nil => simp at hmem
  | cons pm rest ih =>
    simp only [List.map_cons, List.nodup_cons] at hnd
    rcases List.mem_cons.mp hmem with heq | htail
    · subst heq
      rw [chkFoldIdx_cons, chkFoldIdx_lookup_notMem _ _ _ hnd.1]
      exact chkUpdate_lookup_self idx p m
    · have hne : p ≠ pm.1 := by
        intro hc
        exact hnd.1 (hc ▸ List.mem_map_of_mem Prod.fst htail)
      rw [chkFoldIdx_cons, ih _ htail hnd.2, chkUpdate_lookup_ne _ _ _ _ hne]

theorem chkFoldIdx_lookup_none (idx : FileIndex) (l : List (String × Nat))
    (q : String) :
    lookupIdx (chkFoldIdx idx l) q = none ↔
      lookupIdx idx q = none ∧ q ∉ l.map Prod.fst := by
  induction l generalizing idx with
  | nil => simp [chkFoldIdx]
  | cons pm rest ih =>
    rw [chkFoldIdx_cons, ih]
    simp only [List.map_cons, List.mem_cons]
    by_cases hq : q = pm.1
    · subst hq
      simp only [chkUpdate_lookup_self, true_or, not_true_eq_false]
      simp
    · rw [chkUpdate_lookup_ne _ _ _ _ hq]
      simp [hq]

theorem any_eq_of_forall {α : Type} (l : List α) (f g : α → Bool)
    (h : ∀ x ∈ l, f x = g x) : l.any f = l.any g := by
  induction l with
  | nil => rfl
  | cons a rest ih =>
    simp only [List.any_cons]
    rw [h a (List.mem_cons_self a rest), ih fun x hx => h x (List.mem_cons_of_mem a hx)]

theorem chkFoldPair_cons (st : FileIndex × Bool) (pm : String × Nat)
    (rest : List (String × Nat)) :
    chkFoldPair st (pm :: rest) = chkFoldPair (chkStep st pm) rest :=
  rfl

theorem chkFoldPair_snd (idx : FileIndex) (c : Bool) (l : List (String × Nat))
    (hnd : (l.map Prod.fst).Nodup) :
    (chkFoldPair (idx, c) l).2 = (c || l.any (newerIn idx)) := by
  induction l generalizing idx c with
  | nil => simp [chkFoldPair]
  | cons pm rest ih =>
    simp only [List.map_cons, List.nodup_cons] at hnd
    rw [chkFoldPair_cons]
    have hstep : chkStep (idx, c) pm
        = ((chkUpdate idx pm.1 pm.2).1, c || newerIn idx pm) := by
      unfold chkStep
      rw [chkUpdate_snd]
    rw [hstep, ih _ _ hnd.2]
    have hrest : rest.any (newerIn (chkUpdate idx pm.1 pm.2).1)
        = rest.any (newerIn idx) := by
      apply any_eq_of_forall
      intro x hx
      have hne : x.1 ≠ pm.1 := by
        intro hc
        exact hnd.1 (hc ▸ List.mem_map_of_mem Prod.fst hx)
      unfold newerIn
      rw [chkUpdate_lookup_ne _ _ _ _ hne]
    rw [hrest, List.any_cons, Bool.or_assoc]

/-! ## `scanFiles` fold lemmas -/

theorem scanFold_cons (idx : FileIndex) (pm : String × Nat)
    (rest : List (String × Nat)) :
    scanFold idx (pm :: rest) = scanFold (setIdx idx pm.1 pm.2) rest :=
  rfl

theorem scanFold_lookup_notMem (idx : FileIndex) (l : List (String × Nat))
    (q : String) (h : q ∉ l.map Prod.fst) :
    lookupIdx (scanFold idx l) q = lookupIdx idx q := by
  induction l generalizing idx with
  | nil => rfl
  | cons pm rest ih =>
    simp only [List.map_cons, List.mem_cons, not_or] at h
    rw [scanFold_cons, ih _ h.2, lookupIdx_setIdx]
    simp [h.1]

theorem scanFold_lookup_mem (idx : FileIndex) (l : List (String × Nat))
    (p : String) (m : Nat) (hmem : (p, m) ∈ l)
    (hnd : (l.map Prod.fst).Nodup) :
    lookupIdx (scanFold idx l) p = some m := by
  induction l generalizing idx with
  | nil => simp at hmem
  | cons pm rest ih =>
    simp only [List.map_cons, List.nodup_cons] at hnd
    rcases List.mem_cons.mp hmem with heq | htail
    · subst heq
      rw [scanFold_cons, scanFold_lookup_notMem _ _ _ hnd.1, lookupIdx_setIdx]
      simp
    · rw [scanFold_cons, ih _ htail hnd.2]

theorem scanFold_lookup_none (idx : FileIndex) (l : List (String × Nat))
    (q : String) :
    lookupIdx (scanFold idx l) q = none ↔
      lookupIdx idx q = none ∧ q ∉ l.map Prod.fst := by
  induction l generalizing idx with
  | nil => simp [scanFold]
  | cons pm rest ih =>
    rw [scanFold_cons, ih]
    simp only [List.map_cons, List.mem_cons]
    by_cases hq : q = pm.1
    · subst hq
      rw [lookupIdx_setIdx]
      simp
    · rw [lookupIdx_setIdx]
      simp [hq]

/-- Where no stored timestamp of a visited file exceeds the visited one,
the conditional update of `checkForChanges` and the unconditional
overwrite of `scanFiles` produce the same index. -/
theorem chkFoldIdx_eq_scanFold (idx : FileIndex) (l : List (String × Nat))
    (hnd : (l.map Prod.fst).Nodup)
    (hle : ∀ pm ∈ l, ∀ last, lookupIdx idx pm.1 = some last → last ≤ pm.2) :
    chkFoldIdx idx l = scanFold idx l := by
  induction l generalizing idx with
  | nil => rfl
  | cons pm rest ih =>
    simp only [List.map_cons, List.nodup_cons] at hnd
    have hhead : (chkUpdate idx pm.1 pm.2).1 = setIdx idx pm.1 pm.2 := by
      unfold chkUpdate
      cases hl : lookupIdx idx pm.1 with
      | none => simp
      | some last =>
        by_cases hlt : last < pm.2
        · simp [hlt]
        · have hlast : last = pm.2 :=
            Nat.le_antisymm
              (hle pm (List.mem_cons_self pm rest) last hl)
              (Nat.le_of_not_lt hlt)
          have hset : setIdx idx pm.1 pm.2 = idx :=
            setIdx_of_lookup_eq idx pm.1 pm.2 (by rw [hl, hlast])
          simp [hlt, hset]
    rw [chkFoldIdx_cons, scanFold_cons, hhead]
    apply ih
    · exact hnd.2
    · intro pm2 hmem last hl
      have hne : pm2.1 ≠ pm.1 := by
        intro hc
        exact hnd.1 (hc ▸ List.mem_map_of_mem Prod.fst hmem)
      rw [lookupIdx_setIdx] at hl
      simp only [hne, if_false] at hl
      exact hle pm2 (List.mem_cons_of_mem pm hmem) last hl

/-! ## Running the walk on an error-free tree is the fold over the
eligible files -/

mutual
theorem chkEntry_run (cfg : WindConfig) (p : String) (e : FSEntry)
    (st : FileIndex × Bool) (h : errFreeEntry cfg p e = true) :
    chkEntry cfg st p e = (chkFoldPair st (eligEntry cfg p e), false) := by
  cases e with
  | errEnt n => simp [errFreeEntry] at h
  | dir n cs =>
    by_cases hex : isExcluded cfg p
    · simp [chkEntry, eligEntry, hex, chkFoldPair]
    · have hf : errFreeList cfg p cs = true := by
        simpa [errFreeEntry, hex] using h
      rw [show chkEntry cfg st p (.dir n cs)
            = if isExcluded cfg p then (st, false) else chkList cfg st p cs from rfl]
      simp only [hex, if_false, Bool.false_eq_true]
      rw [chkList_run cfg p cs st hf]
      simp [eligEntry, hex]
  | file n m =>
    by_cases hex : isExcluded cfg p
    · simp [chkEntry, eligEntry, hex, chkFoldPair]
    · by_cases hw : shouldWatch cfg p
      · simp [chkEntry, eligEntry, hex, hw, chkFoldPair, chkStep]
      · simp [chkEntry, eligEntry, hex, hw, chkFoldPair]

theorem chkList_run (cfg : WindConfig) (base : String) (l : List FSEntry)
    (st : FileIndex × Bool) (h : errFreeList cfg base l = true) :
    chkList cfg st base l = (chkFoldPair st (eligList cfg base l), false) := by
  cases l with
  | nil => simp [chkList, eligList, chkFoldPair]
  | cons e rest =>
    rw [show errFreeList cfg base (e :: rest)
          = (errFreeEntry cfg (childPath base (entryName e)) e &&
              errFreeList cfg base rest) from rfl] at h
    rw [Bool.and_eq_true] at h
    have he := chkEntry_run cfg (childPath base (entryName e)) e st h.1
    rw [show chkList cfg st base (e :: rest)
          = (let r := chkEntry cfg st (childPath base (entryName e)) e
             if r.2 then r else chkList cfg r.1 base rest) from rfl]
    simp only [he]
    rw [chkList_run cfg base rest (chkFoldPair st (eligEntry cfg (childPath base (entryName e)) e)) h.2]
    rw [show eligList cfg base (e :: rest)
          = eligEntry cfg (childPath base (entryName e)) e ++ eligList cfg base rest from rfl]
    rw [chkFoldPair_append]
    simp
end

mutual
theorem scanEntry_run (cfg : WindConfig) (p : String) (e : FSEntry)
    (idx : FileIndex) (h : errFreeEntry cfg p e = true) :
    scanEntry cfg idx p e = (scanFold idx (eligEntry cfg p e), false) := by
  cases e with
  | errEnt n => simp [errFreeEntry] at h
  | dir n cs =>
    by_cases hex : isExcluded cfg p
    · simp [scanEntry, eligEntry, hex, scanFold]
    · have hf : errFreeList cfg p cs = true := by
        simpa [errFreeEntry, hex] using h
      rw [show scanEntry cfg idx p (.dir n cs)
            = if isExcluded cfg p then (idx, false) else scanList cfg idx p cs from rfl]
      simp only [hex, if_false, Bool.false_eq_true]
      rw [scanList_run cfg p cs idx hf]
      simp [eligEntry, hex]
  | file n m =>
    by_cases hex : isExcluded cfg p
    · simp [scanEntry, eligEntry, hex, scanFold]
    · by_cases hw : shouldWatch cfg p
      · simp [scanEntry, eligEntry, hex, hw, scanFold]
      · simp [scanEntry, eligEntry, hex, hw, scanFold]

theorem scanList_run (cfg : WindConfig) (base : String) (l : List FSEntry)
    (idx : FileIndex) (h : errFreeList cfg base l = true) :
    scanList cfg idx base l = (scanFold idx (eligList cfg base l), false) := by
  cases l with
  | nil => simp [scanList, eligList, scanFold]
  | cons e rest =>
    rw [show errFreeList cfg base (e :: rest)
          = (errFreeEntry cfg (childPath base (entryName e)) e &&
              errFreeList cfg base rest) from rfl] at h
    rw [Bool.and_eq_true] at h
    have he := scanEntry_run cfg (childPath base (entryName e)) e idx h.1
    rw [show scanList cfg idx base (e :: rest)
          = (let r := scanEntry cfg idx (childPath base (entryName e)) e
             if r.2 then r else scanList cfg r.1 base rest) from rfl]
    simp only [he]
    rw [scanList_run cfg base rest (scanFold idx (eligEntry cfg (childPath base (entryName e)) e)) h.2]
    rw [show eligList cfg base (e :: rest)
          = eligEntry cfg (childPath base (entryName e)) e ++ eligList cfg base rest from rfl]
    unfold scanFold
    rw [List.foldl_append]
    simp
end

theorem newerIn_iff (idx : FileIndex) (pm : String × Nat) :
    newerIn idx pm = true ↔
      ∃ last, lookupIdx idx pm.1 = some last ∧ last < pm.2 := by
  unfold newerIn
  cases h : lookupIdx idx pm.1 with
  | none => simp
  | some last => simp

theorem chkNewVal_not_lt (old : Option Nat) (m : Nat) :
    ¬ (chkNewVal old m < m) := by
  unfold chkNewVal
  cases old with
  | none => exact Nat.lt_irrefl m
  | some last =>
    by_cases h : last < m
    · simp [h]
    · simp [h]

/-! ## Claim C1 -/

/-- C1: over one error-free poll scan whose eligible files have distinct
paths, `checkForChanges` reports a change exactly when some file already
present in `FileIndex` has a strictly newer modification timestamp; each
visited eligible file ends up stored with its first-sight value, its new
strictly-newer value, or its unchanged old value (`chkNewVal`); paths the
walk does not visit keep their old entries; and an immediately repeated
call over the unchanged tree reports no change. -/
theorem checkForChanges_spec (cfg : WindConfig) (idx : FileIndex)
    (tree : List FSEntry) (herr : errFree cfg tree = true)
    (hnd : ((eligFiles cfg tree).map Prod.fst).Nodup) :
    (checkForChanges cfg idx tree).2 = false
    ∧ ((checkForChanges cfg idx tree).1.2 = true ↔
        ∃ pm ∈ eligFiles cfg tree,
          ∃ last, lookupIdx idx pm.1 = some last ∧ last < pm.2)
    ∧ (∀ pm ∈ eligFiles cfg tree,
        lookupIdx (checkForChanges cfg idx tree).1.1 pm.1
          = some (chkNewVal (lookupIdx idx pm.1) pm.2))
    ∧ (∀ q, q ∉ (eligFiles cfg tree).map Prod.fst →
        lookupIdx (checkForChanges cfg idx tree).1.1 q = lookupIdx idx q)
    ∧ (checkForChanges cfg (checkForChanges cfg idx tree).1.1 tree).1.2
        = false := by
  have hrun : ∀ i : FileIndex, checkForChanges cfg i tree
      = (chkFoldPair (i, false) (eligFiles cfg tree), false) :=
    fun i => chkEntry_run cfg "." (.dir "." tree) (i, false) herr
  have hfst : ∀ i : FileIndex,
      (checkForChanges cfg i tree).1.1 = chkFoldIdx i (eligFiles cfg tree) := by
    intro i
    rw [hrun i]
    exact chkFoldPair_fst i false _
  refine ⟨by rw [hrun idx], ?_, ?_, ?_, ?_⟩
  · rw [hrun idx]
    show (chkFoldPair (idx, false) (eligFiles cfg tree)).2 = true ↔ _
    rw [chkFoldPair_snd idx false _ hnd]
    simp only [Bool.false_or, List.any_eq_true]
    constructor
    · rintro ⟨pm, hpm, hn⟩
      exact ⟨pm, hpm, (newerIn_iff idx pm).mp hn⟩
    · rintro ⟨pm, hpm, hn⟩
      exact ⟨pm, hpm, (newerIn_iff idx pm).mpr hn⟩
  · intro pm hpm
    rw [hfst idx]
    obtain ⟨p, m⟩ := pm
    exact chkFoldIdx_lookup_mem idx _ p m hpm hnd
  · intro q hq
    rw [hfst idx]
    exact chkFoldIdx_lookup_notMem idx _ q hq
  · rw [hfst idx, hrun (chkFoldIdx idx (eligFiles cfg tree))]
    show (chkFoldPair (chkFoldIdx idx (eligFiles cfg tree), false)
            (eligFiles cfg tree)).2 = false
    rw [chkFoldPair_snd _ false _ hnd]
    simp only [Bool.false_or]
    rw [List.any_eq_false]
    intro pm hpm
    obtain ⟨p, m⟩ := pm
    have hl := chkFoldIdx_lookup_mem idx _ p m hpm hnd
    unfold newerIn
    simp only at hl ⊢
    rw [hl]
    simp [chkNewVal_not_lt]

/-- Concrete tree for the C1 witness. -/
def c1Tree : List FSEntry :=
  [.file "main.go" 10, .dir "src" [.file "app.go" 5], .file "notes.txt" 3]

/-- Concrete starting index for the C1 witness. -/
def c1Idx : FileIndex := [("main.go", 4)]

/-- Witness for C1 at a concrete tree and index. -/
theorem checkForChanges_spec_witness :
    (errFree defaultConfig c1Tree = true
      ∧ ((eligFiles defaultConfig c1Tree).map Prod.fst).Nodup)
    ∧ ((checkForChanges defaultConfig c1Idx c1Tree).2 = false
      ∧ ((checkForChanges defaultConfig c1Idx c1Tree).1.2 = true ↔
          ∃ pm ∈ eligFiles defaultConfig c1Tree,
            ∃ last, lookupIdx c1Idx pm.1 = some last ∧ last < pm.2)
      ∧ (∀ pm ∈ eligFiles defaultConfig c1Tree,
          lookupIdx (checkForChanges defaultConfig c1Idx c1Tree).1.1 pm.1
            = some (chkNewVal (lookupIdx c1Idx pm.1) pm.2))
      ∧ (∀ q, q ∉ (eligFiles defaultConfig c1Tree).map Prod.fst →
          lookupIdx (checkForChanges defaultConfig c1Idx c1Tree).1.1 q
            = lookupIdx c1Idx q)
      ∧ (checkForChanges defaultConfig
            (checkForChanges defaultConfig c1Idx c1Tree).1.1 c1Tree).1.2
          = false) :=
  ⟨⟨by decide, by decide⟩,
    checkForChanges_spec defaultConfig c1Idx c1Tree (by decide) (by decide)⟩

/-! ## Claim C2 -/

/-- C2: an invocation of `buildAndRun` that finds a build in progress is
a no-op (same state, no build executed, no process stopped or started);
an invocation that does not ends with the flag cleared on every exit path
and executes exactly one build. -/
theorem buildAndRun_mutual_exclusion (sigOk buildOk startOk : Bool)
    (newPid : Nat) (s : BRState) :
    (s.building = true → buildAndRun sigOk buildOk startOk newPid s = s)
    ∧ (s.building = false →
        (buildAndRun sigOk buildOk startOk newPid s).building = false
        ∧ (buildAndRun sigOk buildOk startOk newPid s).builds
            = s.builds + 1) := by
  constructor
  · intro h
    simp [buildAndRun, h]
  · intro h
    unfold buildAndRun
    rw [h]
    simp only [Bool.false_eq_true, if_false]
    by_cases hb : buildOk = false
    · simp [hb]
    · by_cases hs2 : startOk = false <;> simp [hb, hs2]

/-- Witness for C2: a mid-build state is untouched, a quiescent state
builds once and ends unflagged. -/
theorem buildAndRun_mutual_exclusion_witness :
    (buildAndRun true true true 7 ⟨true, some 3, 5⟩ = ⟨true, some 3, 5⟩)
    ∧ ((buildAndRun true true true 7 ⟨false, some 3, 5⟩).building = false
      ∧ (buildAndRun true true true 7 ⟨false, some 3, 5⟩).builds = 5 + 1) :=
  ⟨(buildAndRun_mutual_exclusion true true true 7 ⟨true, some 3, 5⟩).1 rfl,
    (buildAndRun_mutual_exclusion true true true 7 ⟨false, some 3, 5⟩).2 rfl⟩

/-! ## Claim C3 -/

/-- C3: a tick reporting a change with nothing pending sets the pending
flag and arms the debounce timer for the full delay from that tick; a
change while pending leaves the state (and the timer) untouched; a fire
with pending set clears it and runs exactly one cycle; a burst of three
change ticks followed by the fire yields exactly one build, with the
window armed at the first change tick. -/
theorem watchFiles_debounce (delay : Nat) (s : WState)
    (now t1 t2 t3 tf : Nat) (hs : s.stopped = false) :
    (s.pending = false → wstep delay s (.tick now true)
        = { s with pending := true, deadline := some (now + delay) })
    ∧ (s.pending = true → wstep delay s (.tick now true) = s)
    ∧ (s.pending = true → wstep delay s (.fire now)
        = { s with pending := false, deadline := none, builds := s.builds + 1 })
    ∧ (wrun delay winit [.tick t1 true, .tick t2 true, .tick t3 true]).deadline
        = some (t1 + delay)
    ∧ (wrun delay winit
          [.tick t1 true, .tick t2 true, .tick t3 true, .fire tf]).builds
        = 1 := by
  refine ⟨?_, ?_, ?_, ?_, ?_⟩
  · intro h
    simp [wstep, hs, h]
  · intro h
    simp [wstep, hs, h]
  · intro h
    simp [wstep, hs, h]
  · simp [wrun, wstep, winit]
  · simp [wrun, wstep, winit]

/-- Witness for C3 with concrete delay and tick times. -/
theorem watchFiles_debounce_witness :
    winit.stopped = false
    ∧ ((winit.pending = false → wstep 3 winit (.tick 5 true)
          = { winit with pending := true, deadline := some (5 + 3) })
      ∧ (winit.pending = true → wstep 3 winit (.tick 5 true) = winit)
      ∧ (winit.pending = true → wstep 3 winit (.fire 5)
          = { winit with pending := false, deadline := none, builds := winit.builds + 1 })
      ∧ (wrun 3 winit [.tick 1 true, .tick 2 true, .tick 3 true]).deadline
          = some (1 + 3)
      ∧ (wrun 3 winit
            [.tick 1 true, .tick 2 true, .tick 3 true, .fire 4]).builds
          = 1) :=
  ⟨by decide, watchFiles_debounce 3 winit 5 1 2 3 4 (by decide)⟩

/-! ## Claim C4 -/

/-- C4: an entry whose relative path contains an excluded fragment is
skipped with the walk state untouched — a whole directory subtree at
once, and a file regardless of its extension — in both walks; such an
entry contributes no eligible file, so it is never inserted into
`FileIndex` and never causes a reported change. -/
theorem excluded_entries_skipped (cfg : WindConfig) (st : FileIndex × Bool)
    (idx : FileIndex) (p n : String) (cs : List FSEntry) (m : Nat)
    (hex : isExcluded cfg p = true) :
    chkEntry cfg st p (.dir n cs) = (st, false)
    ∧ chkEntry cfg st p (.file n m) = (st, false)
    ∧ scanEntry cfg idx p (.dir n cs) = (idx, false)
    ∧ scanEntry cfg idx p (.file n m) = (idx, false)
    ∧ eligEntry cfg p (.dir n cs) = []
    ∧ eligEntry cfg p (.file n m) = [] := by
  refine ⟨?_, ?_, ?_, ?_, ?_, ?_⟩ <;>
    simp [chkEntry, scanEntry, eligEntry, hex]

/-- Witness for C4: a `.go` file and a subtree under `vendor/`. -/
theorem excluded_entries_skipped_witness :
    isExcluded defaultConfig "vendor/pkg" = true
    ∧ (chkEntry defaultConfig ([], false) "vendor/pkg"
          (.dir "pkg" [.file "lib.go" 9]) = (([], false), false)
      ∧ chkEntry defaultConfig ([], false) "vendor/pkg"
          (.file "pkg" 9) = (([], false), false)
      ∧ scanEntry defaultConfig [] "vendor/pkg"
          (.dir "pkg" [.file "lib.go" 9]) = ([], false)
      ∧ scanEntry defaultConfig [] "vendor/pkg" (.file "pkg" 9) = ([], false)
      ∧ eligEntry defaultConfig "vendor/pkg" (.dir "pkg" [.file "lib.go" 9]) = []
      ∧ eligEntry defaultConfig "vendor/pkg" (.file "pkg" 9) = []) :=
  ⟨by decide,
    excluded_entries_skipped defaultConfig ([], false) [] "vendor/pkg" "pkg"
      [.file "lib.go" 9] 9 (by decide)⟩

/-! ## Claim C8 -/

/-- C8: `stopProcess` with no handle is a no-op; with a handle it sends
SIGTERM, escalates to a kill exactly when the signal fails, reaps the
process last, and clears the handle; a second stop after any stop is a
no-op (idempotence). -/
theorem stopProcess_spec (sigOk sigOk2 : Bool) (pid : Nat)
    (h : Option Nat) :
    stopProcess sigOk none = (none, [])
    ∧ (stopProcess sigOk h).1 = none
    ∧ (stopProcess true (some pid)).2 = [.sigterm pid, .reap pid]
    ∧ (stopProcess false (some pid)).2
        = [.sigterm pid, .kill pid, .reap pid]
    ∧ stopProcess sigOk2 (stopProcess sigOk h).1 = (none, []) := by
  have h1 : (stopProcess sigOk h).1 = none := by
    cases h <;> rfl
  refine ⟨rfl, h1, rfl, rfl, ?_⟩
  rw [h1]
  rfl

/-! ## Claim C9 -/

/-- C9: `detectProjectStructure` checks, in order, `cmd/api/main.go`,
`cmd/main.go`, a root `main.go`, then the first `cmd/` subdirectory (in
listing order) holding a `main.go`, and otherwise falls back to building
the current directory, with the labels the claim names. -/
theorem detectProjectStructure_spec :
    (∀ fs : ProjFS, statOk fs "cmd/api/main.go" = true →
      detectProjectStructure fs
        = ("go build -o ./tmp/main ./cmd/api", "Standard layout (cmd/api/)"))
    ∧ (∀ fs : ProjFS, statOk fs "cmd/api/main.go" = false →
        statOk fs "cmd/main.go" = true →
      detectProjectStructure fs
        = ("go build -o ./tmp/main ./cmd", "Standard layout (cmd/)"))
    ∧ (∀ fs : ProjFS, statOk fs "cmd/api/main.go" = false →
        statOk fs "cmd/main.go" = false → statOk fs "main.go" = true →
      detectProjectStructure fs
        = ("go build -o ./tmp/main .", "Simple layout (root main.go)"))
    ∧ (∀ fs : ProjFS, ∀ name : String, statOk fs "cmd/api/main.go" = false →
        statOk fs "cmd/main.go" = false → statOk fs "main.go" = false →
        fs.cmdReadOk = true → firstCmdDir fs fs.cmdEntries = some name →
      detectProjectStructure fs
        = ("go build -o ./tmp/main ./cmd/" ++ name,
            "Standard layout (cmd/" ++ name ++ "/)"))
    ∧ (∀ fs : ProjFS, statOk fs "cmd/api/main.go" = false →
        statOk fs "cmd/main.go" = false → statOk fs "main.go" = false →
        (if fs.cmdReadOk then firstCmdDir fs fs.cmdEntries else none) = none →
      detectProjectStructure fs
        = ("go build -o ./tmp/main .", "Fallback (current directory)")) := by
  refine ⟨?_, ?_, ?_, ?_, ?_⟩
  · intro fs h1
    simp [detectProjectStructure, h1]
  · intro fs h1 h2
    simp [detectProjectStructure, h1, h2]
  · intro fs h1 h2 h3
    simp [detectProjectStructure, h1, h2, h3]
  · intro fs name h1 h2 h3 h4 h5
    simp [detectProjectStructure, h1, h2, h3, h4, h5]
  · intro fs h1 h2 h3 h4
    simp [detectProjectStructure, h1, h2, h3, h4]

/-- Witness for C9 on four concrete project layouts. -/
theorem detectProjectStructure_spec_witness :
    detectProjectStructure ⟨["cmd/api/main.go"], [], true⟩
      = ("go build -o ./tmp/main ./cmd/api", "Standard layout (cmd/api/)")
    ∧ detectProjectStructure ⟨["main.go"], [], true⟩
      = ("go build -o ./tmp/main .", "Simple layout (root main.go)")
    ∧ detectProjectStructure ⟨["cmd/web/main.go"], [("web", true)], true⟩
      = ("go build -o ./tmp/main ./cmd/" ++ "web",
          "Standard layout (cmd/" ++ "web" ++ "/)")
    ∧ detectProjectStructure ⟨[], [], true⟩
      = ("go build -o ./tmp/main .", "Fallback (current directory)") :=
  ⟨detectProjectStructure_spec.1 _ (by decide),
    detectProjectStructure_spec.2.2.1 _ (by decide) (by decide) (by decide),
    detectProjectStructure_spec.2.2.2.1 _ "web" (by decide) (by decide)
      (by decide) (by decide) (by decide),
    detectProjectStructure_spec.2.2.2.2 _ (by decide) (by decide) (by decide)
      (by decide)⟩

/-! ## Claim C10 -/

theorem stringAppend_assoc (a b c : String) : a ++ b ++ c = a ++ (b ++ c) := by
  rcases a with ⟨la⟩
  rcases b with ⟨lb⟩
  rcases c with ⟨lc⟩
  show String.mk (la ++ lb ++ lc) = String.mk (la ++ (lb ++ lc))
  rw [List.append_assoc]

/-- C10: whatever the filesystem looks like, the chosen build command
writes the artifact to `./tmp/main`, the path the fixed run command
executes, which is the same file `cleanup` removes. -/
theorem buildCmd_targets_run_path (fs : ProjFS) :
    (∃ tgt, detectProjectStructure fs
        = (("go build -o ./tmp/main " ++ tgt), (detectProjectStructure fs).2))
    ∧ windRunCmd = "./tmp/main"
    ∧ "./" ++ windCleanupTarget = windRunCmd := by
  refine ⟨?_, rfl, by decide⟩
  unfold detectProjectStructure
  by_cases h1 : statOk fs "cmd/api/main.go" = true
  · exact ⟨"./cmd/api", by simp [h1]⟩
  · rw [Bool.not_eq_true] at h1
    by_cases h2 : statOk fs "cmd/main.go" = true
    · exact ⟨"./cmd", by simp [h1, h2]⟩
    · rw [Bool.not_eq_true] at h2
      by_cases h3 : statOk fs "main.go" = true
      · exact ⟨".", by simp [h1, h2, h3]⟩
      · rw [Bool.not_eq_true] at h3
        cases h4 : (if fs.cmdReadOk then firstCmdDir fs fs.cmdEntries else none) with
        | none => exact ⟨".", by simp [h1, h2, h3, h4]⟩
        | some name =>
          refine ⟨"./cmd/" ++ name, ?_⟩
          simp only [h1, h2, h3, h4, Bool.false_eq_true, if_false]
          rw [← stringAppend_assoc,
            show ("go build -o ./tmp/main " ++ "./cmd/" : String)
              = "go build -o ./tmp/main ./cmd/" from by decide]

/-! ## Claim C5 (corrected: stale entries persist) -/

/-- Counterexample to C5 as stated: starting from an index holding
`old.go` (a file that no longer exists), a completed scan leaves that key
in `FileIndex`, so the index does not contain exactly the existing
eligible files. -/
theorem fileIndex_exact_cex :
    lookupIdx (checkForChanges defaultConfig [("old.go", 5)]
        [.file "main.go" 7]).1.1 "old.go" = some 5
    ∧ "old.go" ∉ (eligFiles defaultConfig [.file "main.go" 7]).map Prod.fst
    ∧ lookupIdx (scanFiles defaultConfig [("old.go", 5)]
        [.file "main.go" 7]).1 "old.go" = some 5 := by
  refine ⟨by decide, by decide, by decide⟩

/-- Concrete tree for the C5 witness. -/
def c5Tree : List FSEntry := [.file "main.go" 7]

/-- Concrete starting index for the C5 witness. -/
def c5Idx : FileIndex := [("old.go", 5)]

/-- C5 amended: after an error-free scan (either entry point), a path is
absent from `FileIndex` exactly when it was absent before the scan and is
not a visited eligible file — so the index contains every currently
existing eligible file, plus every pre-existing entry (stale entries are
never deleted). -/
theorem fileIndex_keys_after_scan (cfg : WindConfig) (idx : FileIndex)
    (tree : List FSEntry) (herr : errFree cfg tree = true) :
    (∀ q, lookupIdx (checkForChanges cfg idx tree).1.1 q = none ↔
        (lookupIdx idx q = none ∧ q ∉ (eligFiles cfg tree).map Prod.fst))
    ∧ (∀ q, lookupIdx (scanFiles cfg idx tree).1 q = none ↔
        (lookupIdx idx q = none ∧ q ∉ (eligFiles cfg tree).map Prod.fst)) := by
  have hrun := chkEntry_run cfg "." (.dir "." tree) (idx, false) herr
  have hscan := scanEntry_run cfg "." (.dir "." tree) idx herr
  constructor
  · intro q
    show lookupIdx (chkEntry cfg (idx, false) "." (.dir "." tree)).1.1 q
        = none ↔ _
    rw [hrun]
    show lookupIdx (chkFoldPair (idx, false) (eligFiles cfg tree)).1 q
        = none ↔ _
    rw [chkFoldPair_fst]
    exact chkFoldIdx_lookup_none idx _ q
  · intro q
    show lookupIdx (scanEntry cfg idx "." (.dir "." tree)).1 q = none ↔ _
    rw [hscan]
    exact scanFold_lookup_none idx _ q

/-- Witness for the amended C5. -/
theorem fileIndex_keys_after_scan_witness :
    errFree defaultConfig c5Tree = true
    ∧ ((∀ q, lookupIdx (checkForChanges defaultConfig c5Idx c5Tree).1.1 q
            = none ↔
          (lookupIdx c5Idx q = none
            ∧ q ∉ (eligFiles defaultConfig c5Tree).map Prod.fst))
      ∧ (∀ q, lookupIdx (scanFiles defaultConfig c5Idx c5Tree).1 q = none ↔
          (lookupIdx c5Idx q = none
            ∧ q ∉ (eligFiles defaultConfig c5Tree).map Prod.fst))) :=
  ⟨by decide, fileIndex_keys_after_scan defaultConfig c5Idx c5Tree (by decide)⟩

/-! ## Claim C6 (corrected: a failed scan keeps its partial results) -/

/-- Counterexample to C6 as stated: with a tracked file touched before
the walk hits an error entry, the failing `checkForChanges` call still
updates the stored timestamp and still reports a change. -/
theorem scanError_discard_cex :
    (checkForChanges defaultConfig [("main.go", 5)]
        [.file "main.go" 9, .errEnt "bad"]).2 = true
    ∧ (checkForChanges defaultConfig [("main.go", 5)]
        [.file "main.go" 9, .errEnt "bad"]).1.2 = true
    ∧ lookupIdx (checkForChanges defaultConfig [("main.go", 5)]
        [.file "main.go" 9, .errEnt "bad"]).1.1 "main.go" = some 9 := by
  refine ⟨by decide, by decide, by decide⟩

theorem chkList_append_err (cfg : WindConfig) (base n : String)
    (post : List FSEntry) :
    ∀ (pre : List FSEntry) (st st1 : FileIndex × Bool),
      chkList cfg st base pre = (st1, false) →
      chkList cfg st base (pre ++ .errEnt n :: post) = (st1, true) := by
  intro pre
  induction pre with
  | nil =>
    intro st st1 hpre
    have hst : st1 = st := by
      have : (st, false) = (st1, false) := by
        rw [← hpre]
        rfl
      exact (Prod.mk.injEq _ _ _ _ ▸ this).1.symm
    subst hst
    rfl
  | cons e rest ih =>
    intro st st1 hpre
    rw [show chkList cfg st base (e :: rest)
          = (let r := chkEntry cfg st (childPath base (entryName e)) e
             if r.2 then r else chkList cfg r.1 base rest) from rfl] at hpre
    rw [List.cons_append,
      show chkList cfg st base (e :: (rest ++ .errEnt n :: post))
          = (let r := chkEntry cfg st (childPath base (entryName e)) e
             if r.2 then r
             else chkList cfg r.1 base (rest ++ .errEnt n :: post)) from rfl]
    by_cases hr : (chkEntry cfg st (childPath base (entryName e)) e).2 = true
    · exfalso
      simp only [hr, if_true] at hpre
      rw [hpre] at hr
      simp at hr
    · simp only [Bool.not_eq_true] at hr
      simp only [hr, Bool.false_eq_true, if_false] at hpre ⊢
      exact ih _ _ hpre

/-- C6 amended: a walk error aborts the scan at the failing entry and is
non-fatal, but the effects of entries already visited persist: the call
returns the state reached so far (updates kept, changes detected so far
still reported) with the error flag set; and a poll tick never stops the
watch loop, which continues to the next tick. -/
theorem scanError_aborts_keeps_prefix (cfg : WindConfig)
    (st st1 : FileIndex × Bool) (base n : String)
    (pre post : List FSEntry)
    (hpre : chkList cfg st base pre = (st1, false))
    (delay now : Nat) (s : WState) (ch : Bool) :
    chkList cfg st base (pre ++ .errEnt n :: post) = (st1, true)
    ∧ (wstep delay s (.tick now ch)).stopped = s.stopped := by
  constructor
  · exact chkList_append_err cfg base n post pre st st1 hpre
  · by_cases h1 : s.stopped = true
    · simp [wstep, h1]
    · rw [Bool.not_eq_true] at h1
      by_cases h2 : (ch && !s.pending) = true <;> simp [wstep, h1, h2]

/-- Witness for the amended C6: the prefix touches `main.go` (update and
change kept), then the walk aborts at the error entry. -/
theorem scanError_aborts_keeps_prefix_witness :
    chkList defaultConfig ([("main.go", 5)], false) "." [.file "main.go" 9]
      = (([("main.go", 9)], true), false)
    ∧ (chkList defaultConfig ([("main.go", 5)], false) "."
          ([.file "main.go" 9] ++ .errEnt "bad" :: [])
        = (([("main.go", 9)], true), true)
      ∧ (wstep 3 winit (.tick 0 true)).stopped = winit.stopped) :=
  ⟨by decide,
    scanError_aborts_keeps_prefix defaultConfig ([("main.go", 5)], false)
      (([("main.go", 9)]), true) "." "bad" [.file "main.go" 9] []
      (by decide) 3 0 winit true⟩

/-! ## Claim C7 (corrected: the two walks update differently) -/

/-- Counterexample to C7 as stated: from the same index and tree, when a
stored timestamp is newer than the file's current one, `scanFiles`
overwrites the entry while `checkForChanges` keeps it — the final
indexes differ. -/
theorem scan_check_same_index_cex :
    (scanFiles defaultConfig [("main.go", 5)] [.file "main.go" 3]).1
      ≠ (checkForChanges defaultConfig [("main.go", 5)]
          [.file "main.go" 3]).1.1 := by
  decide

/-- C7 amended: the two entry points share the walk and the filters, so
whenever no stored timestamp of a visited file exceeds its current one
(in particular from the empty index), they leave `FileIndex` identical;
`scanFiles` reports no changes (it has no change output at all). -/
theorem scan_check_agree (cfg : WindConfig) (idx : FileIndex)
    (tree : List FSEntry) (herr : errFree cfg tree = true)
    (hnd : ((eligFiles cfg tree).map Prod.fst).Nodup)
    (hle : ∀ pm ∈ eligFiles cfg tree, ∀ last,
      lookupIdx idx pm.1 = some last → last ≤ pm.2) :
    (scanFiles cfg idx tree).1 = (checkForChanges cfg idx tree).1.1
    ∧ (scanFiles cfg [] tree).1 = (checkForChanges cfg [] tree).1.1 := by
  have key : ∀ i : FileIndex,
      (∀ pm ∈ eligFiles cfg tree, ∀ last,
        lookupIdx i pm.1 = some last → last ≤ pm.2) →
      (scanFiles cfg i tree).1 = (checkForChanges cfg i tree).1.1 := by
    intro i hi
    show (scanEntry cfg i "." (.dir "." tree)).1
        = (chkEntry cfg (i, false) "." (.dir "." tree)).1.1
    rw [scanEntry_run cfg "." (.dir "." tree) i herr,
      chkEntry_run cfg "." (.dir "." tree) (i, false) herr]
    show scanFold i (eligFiles cfg tree)
        = (chkFoldPair (i, false) (eligFiles cfg tree)).1
    rw [chkFoldPair_fst]
    exact (chkFoldIdx_eq_scanFold i _ hnd hi).symm
  refine ⟨key idx hle, key [] ?_⟩
  intro pm hpm last hl
  simp [lookupIdx] at hl

/-- Concrete tree for the C7 witness. -/
def c7Tree : List FSEntry := [.file "main.go" 7, .file "new.go" 4]

/-- Concrete starting index for the C7 witness. -/
def c7Idx : FileIndex := [("main.go", 2)]

/-- Witness for the amended C7. -/
theorem scan_check_agree_witness :
    (errFree defaultConfig c7Tree = true
      ∧ ((eligFiles defaultConfig c7Tree).map Prod.fst).Nodup
      ∧ (∀ pm ∈ eligFiles defaultConfig c7Tree, ∀ last,
          lookupIdx c7Idx pm.1 = some last → last ≤ pm.2))
    ∧ ((scanFiles defaultConfig c7Idx c7Tree).1
        = (checkForChanges defaultConfig c7Idx c7Tree).1.1
      ∧ (scanFiles defaultConfig [] c7Tree).1
        = (checkForChanges defaultConfig [] c7Tree).1.1) :=
  ⟨⟨by decide, by decide, by decide⟩,
    scan_check_agree defaultConfig c7Idx c7Tree (by decide) (by decide)
      (by decide)⟩
